import Mathlib

/-!
Shallow embedding of the availability-extraction pipeline of
`check_gap_stock.py` (GAP size monitor), together with proofs about it.

Conventions of the embedding:
* Python strings are modelled as `List Char` (`Str`); `String` literals are
  converted with `.data`.  Character classes (`\w`, `\s`, `str.lower`,
  `str.strip`, `str.isdigit`) are modelled on the ASCII fragment, which covers
  every string handled by the program's fixed token sets and the inputs of the
  properties proved here; Python's classes are Unicode-aware beyond that.
* A decoded JSON value (the result of `json.loads`) is the inductive `Py`:
  mappings keep their key order (Python dicts preserve insertion order), so a
  dict is a key-ordered association list.  Python `float` scalars are not
  represented: no property below concerns them, and every branch of the source
  treats them uniformly with the other scalars.
* Python dict construction/update is modelled by `dictUpd` (insert keeps the
  position of an existing key and overwrites its value, otherwise appends),
  which is exactly CPython's dict semantics.
* Regular expressions from the source are unfolded into explicit bounded
  searches over positions, with `re.search` = "some match position exists".
* `fetch`, `BeautifulSoup` parsing and webhook delivery are external
  collaborators; the embedding starts from their outputs (decoded script
  blocks and rendered page text), which is the boundary the specification
  draws in its section 6.
-/

namespace Gap

abbrev Str := List Char

/-- Python scalar values that can appear as leaves of a decoded JSON block
(`str`, `int`, `bool`, `None`). -/
inductive Scalar where
  | s (v : Str)
  | i (n : Int)
  | b (v : Bool)
  | null
deriving DecidableEq

/-- A decoded JSON-like value, as produced by `json.loads`: nested dicts,
lists and scalars.  Dicts are in key insertion order with unique keys. -/
inductive Py where
  | scalar (v : Scalar)
  | dict (kvs : List (Str × Py))
  | list (xs : List Py)

instance : Inhabited Py := ⟨Py.scalar Scalar.null⟩

/-! ### Basic Python string primitives -/

/-- `str.lower` (ASCII). -/
def lower (s : Str) : Str := s.map Char.toLower

/-- `str.strip()`: drop whitespace from both ends. -/
def pyStrip (s : Str) : Str :=
  ((s.dropWhile Char.isWhitespace).reverse.dropWhile Char.isWhitespace).reverse

/-- `str.isdigit()` for ASCII strings: non-empty and all digits. -/
def pyIsDigit (s : Str) : Bool := !s.isEmpty && s.all Char.isDigit

/-- Decimal value of a digit character. -/
def digitVal (c : Char) : Nat := c.toNat - 48

/-- Decimal value of a digit string (`int(q)` on an `isdigit` string). -/
def strVal (s : Str) : Nat := s.foldl (fun a c => 10 * a + digitVal c) 0

/-- Decimal digit character for `n < 10` (the only inputs it receives). -/
def digitChar (n : Nat) : Char :=
  if n = 0 then '0' else if n = 1 then '1' else if n = 2 then '2'
  else if n = 3 then '3' else if n = 4 then '4' else if n = 5 then '5'
  else if n = 6 then '6' else if n = 7 then '7' else if n = 8 then '8' else '9'

/-- Decimal rendering of a natural number, with fuel (`fuel > n` suffices,
since the recursion divides by 10). -/
def natStrAux : Nat → Nat → Str
  | _, 0 => []
  | n, fuel + 1 =>
    if n < 10 then [digitChar n]
    else natStrAux (n / 10) fuel ++ [digitChar (n % 10)]

/-- Python `str(n)` for a natural number. -/
def natStr (n : Nat) : Str := natStrAux n (n + 1)

/-- Python `str(n)` for an integer. -/
def intStr (n : Int) : Str :=
  if n < 0 then '-' :: natStr n.natAbs else natStr n.natAbs

/-- Substring test at a fixed position: the needle occurs in `s` starting at
index `i`. -/
def substrAt (s ndl : Str) (i : Nat) : Bool :=
  ndl == (s.drop i).take ndl.length

/-- Python's `needle in s` substring containment. -/
def containsSub (s ndl : Str) : Bool :=
  (List.range (s.length + 1)).any (substrAt s ndl)

/-- `any(tok in s for tok in toks)`. -/
def containsTok (s : Str) (toks : List Str) : Bool :=
  toks.any (fun tok => containsSub s tok)

/-! ### Word-boundary regex search (`re.search(rf"\b{re.escape(t)}\b", s, re.IGNORECASE)`) -/

/-- Regex word character `\w` (ASCII fragment). -/
def isWordChar (c : Char) : Bool := c.isAlpha || c.isDigit || c == '_'

/-- Whether position `i` of `s` holds a word character (out of range: no). -/
def wAt (s : Str) (i : Nat) : Bool :=
  match s.get? i with
  | some c => isWordChar c
  | none => false

/-- Regex `\b`: a word boundary sits at position `i` (between `s[i-1]` and
`s[i]`, the ends counting as non-word). -/
def boundaryAt (s : Str) (i : Nat) : Bool :=
  (if i = 0 then false else wAt s (i - 1)) != wAt s i

/-- The pattern `\b t \b` (with `t` escaped, case-insensitive) matches at
position `i` of `s`. -/
def wbLitAt (t s : Str) (i : Nat) : Bool :=
  boundaryAt s i && boundaryAt s (i + t.length) &&
    lower ((s.drop i).take t.length) == lower t

/-- `re.search(rf"\b{re.escape(t)}\b", s, re.IGNORECASE)` succeeds. -/
def wbSearch (t s : Str) : Bool :=
  (List.range (s.length + 1)).any (wbLitAt t s)

/-! ### Gap-separated phrase patterns (`in\s*stock`, `out\s*of\s*stock`, `sold\s*out`) -/

/-- The region `s[i..j)` consists of whitespace only (and `i ≤ j`). -/
def wsBetween (s : Str) (i j : Nat) : Bool :=
  decide (i ≤ j) && ((s.drop i).take (j - i)).all Char.isWhitespace

/-- `re.search` of `a\s*b` inside `s` (both halves literal). -/
def wsSeq2 (a b s : Str) : Bool :=
  (List.range (s.length + 1)).any fun i =>
    substrAt s a i && (List.range (s.length + 1)).any fun j =>
      wsBetween s (i + a.length) j && substrAt s b j

/-- `re.search` of `a\s*b\s*c` inside `s`. -/
def wsSeq3 (a b c s : Str) : Bool :=
  (List.range (s.length + 1)).any fun i =>
    substrAt s a i && (List.range (s.length + 1)).any fun j =>
      wsBetween s (i + a.length) j && substrAt s b j &&
        (List.range (s.length + 1)).any fun k =>
          wsBetween s (j + b.length) k && substrAt s c k

/-! ### Python dict update -/

/-- CPython dict insertion: overwrite in place if the key exists, else append. -/
def dictUpd {α : Type} (d : List (Str × α)) (k : Str) (v : α) : List (Str × α) :=
  if d.any (fun e => e.1 == k) then
    d.map (fun e => if e.1 == k then (k, v) else e)
  else d ++ [(k, v)]

/-! ### `_flatten` (source lines 107-119) -/

/-- Path for a dict entry: `f"{prefix}.{k}" if prefix else str(k)`. -/
def mkKey (pfx k : Str) : Str := if pfx = [] then k else pfx ++ '.' :: k

/-- Path for a list element: `f"{prefix}[{i}]"` (the source's root special
case produces the same string, since the prefix is empty there). -/
def mkIdx (pfx : Str) (i : Nat) : Str := pfx ++ '[' :: (natStr i ++ [']'])

mutual
/-- Traversal sequence of `_flatten d prefix`: the `(path, value)` pairs in
the order the source's depth-first traversal inserts them into its dict. -/
def flattenList : Py → Str → List (Str × Py)
  | .scalar v, pfx => [(pfx, .scalar v)]
  | .dict kvs, pfx => flattenFields kvs pfx
  | .list xs, pfx => flattenElems xs pfx 0

/-- Traversal of `for k, v in d.items(): out.update(_flatten(v, key))`. -/
def flattenFields : List (Str × Py) → Str → List (Str × Py)
  | [], _ => []
  | kv :: rest, pfx => flattenList kv.2 (mkKey pfx kv.1) ++ flattenFields rest pfx

/-- Traversal of `for i, v in enumerate(d): out.update(_flatten(v, key))`. -/
def flattenElems : List Py → Str → Nat → List (Str × Py)
  | [], _, _ => []
  | x :: rest, pfx, i => flattenList x (mkIdx pfx i) ++ flattenElems rest pfx (i + 1)
end

/-- `_flatten(d)`: the result dict.  A chain of `out.update(...)` calls over
nested results inserts exactly the traversal pairs in traversal order, so the
final dict is the insertion fold of `flattenList`. -/
def flatten (p : Py) : List (Str × Py) :=
  (flattenList p []).foldl (fun d kv => dictUpd d kv.1 kv.2) []

/-! ### Structural equality of decoded values (Python `==` on blocks/records) -/

mutual
/-- Python `==` on decoded JSON values (dicts compared in order; the dicts
this program compares are filters of one flat dict, where order agrees). -/
def pyBeq : Py → Py → Bool
  | .scalar a, .scalar b => a == b
  | .dict a, .dict b => fieldsBeq a b
  | .list a, .list b => elemsBeq a b
  | _, _ => false

def fieldsBeq : List (Str × Py) → List (Str × Py) → Bool
  | [], [] => true
  | kv :: r1, kw :: r2 => kv.1 == kw.1 && pyBeq kv.2 kw.2 && fieldsBeq r1 r2
  | _, _ => false

def elemsBeq : List Py → List Py → Bool
  | [], [] => true
  | x :: r1, y :: r2 => pyBeq x y && elemsBeq r1 r2
  | _, _ => false
end

/-- Dict lookup by key. -/
def lookupStr (d : List (Str × Py)) (k : Str) : Option Py :=
  (d.find? (fun kv => kv.1 == k)).map (fun kv => kv.2)

/-- Python `==` between two dicts with unique keys: same key set, equal
values (order-insensitive, as for Python dicts). -/
def dictBeq (a b : List (Str × Py)) : Bool :=
  (a.all fun kv =>
    match lookupStr b kv.1 with
    | some v => pyBeq v kv.2
    | none => false) &&
  (b.all fun kv =>
    match lookupStr a kv.1 with
    | some v => pyBeq v kv.2
    | none => false)

/-! ### Scalar classification and stringification -/

/-- `isinstance(v, (str, int, float, bool))` on a flattened value
(`None` fails the test; dict/list never appear among flattened values). -/
def isStrIntBool : Py → Bool
  | .scalar (.s _) => true
  | .scalar (.i _) => true
  | .scalar (.b _) => true
  | _ => false

/-- Python `str(v)` for the scalar values the program stringifies (only
values passing `isStrIntBool` reach `str` in the source). -/
def pyStr : Py → Str
  | .scalar (.s v) => v
  | .scalar (.i n) => intStr n
  | .scalar (.b true) => "True".data
  | .scalar (.b false) => "False".data
  | .scalar .null => "None".data
  | _ => []

/-! ### `_find_size_records` (source lines 122-135) -/

/-- Tokens that make a flattened path "size-like" for record correlation. -/
def sizeToks : List Str :=
  ["size".data, "variant".data, "sku".data, "label".data, "name".data]

/-- Everything before the last `'.'` of `k` (`k.rsplit(".", 1)[0]`,
meaningful when `k` contains a dot). -/
def beforeLastDot (k : Str) : Str :=
  ((k.reverse.dropWhile (fun c => !(c == '.'))).drop 1).reverse

/-- `parent = k.rsplit(".", 1)[0] if "." in k else ""`. -/
def parentOf (k : Str) : Str :=
  if k.any (fun c => c == '.') then beforeLastDot k else []

/-- `record = {kk: vv for kk, vv in flat.items() if parent and kk.startswith(parent)}`. -/
def recordOf (flat : List (Str × Py)) (k : Str) : List (Str × Py) :=
  if (parentOf k).isEmpty then []
  else flat.filter (fun e => (parentOf k).isPrefixOf e.1)

/-- One iteration of the inner loop of `_find_size_records` for entry
`(k, v)` of `flat`. -/
def sizeRecStep (flat : List (Str × Py)) (recs : List (List (Str × Py)))
    (kv : Str × Py) : List (List (Str × Py)) :=
  if isStrIntBool kv.2 then
    if containsTok (lower kv.1) sizeToks then
      let record := recordOf flat kv.1
      if !record.isEmpty && !(recs.any (fun r => dictBeq r record)) then
        recs ++ [record]
      else recs
    else recs
  else recs

/-- `_find_size_records(blocks)`. -/
def find_size_records (blocks : List Py) : List (List (Str × Py)) :=
  blocks.foldl (fun recs b => (flatten b).foldl (sizeRecStep (flatten b)) recs) []

/-! ### `_interpret_availability` (source lines 138-159) -/

/-- `TRUTHY` token set (source line 32). -/
def TRUTHY : List Str :=
  ["true".data, "in stock".data, "instock".data, "available".data, "yes".data,
   "in_stock".data, "in-stock".data, "availableforpurchase".data, "ok".data]

/-- `FALSY` token set (source line 33). -/
def FALSY : List Str :=
  ["false".data, "out of stock".data, "outofstock".data, "unavailable".data,
   "no".data, "soldout".data, "sold out".data, "notavailable".data]

/-- `re.search(r"in\s*stock|available|ok|true", lav, re.IGNORECASE)` on an
already-lowercased value. -/
def truthyRe (lav : Str) : Bool :=
  wsSeq2 ("in".data) ("stock".data) lav || containsSub lav ("available".data) ||
    containsSub lav ("ok".data) || containsSub lav ("true".data)

/-- `re.search(r"out\s*of\s*stock|sold\s*out|unavailable|false", lav, re.IGNORECASE)`
on an already-lowercased value. -/
def falsyRe (lav : Str) : Bool :=
  wsSeq3 ("out".data) ("of".data) ("stock".data) lav ||
    wsSeq2 ("sold".data) ("out".data) lav ||
    containsSub lav ("unavailable".data) || containsSub lav ("false".data)

/-- `fields = {k.lower(): str(v).strip() for k, v in rec.items() if isinstance(...)}`. -/
def buildFields (rec : List (Str × Py)) : List (Str × Str) :=
  (rec.filter (fun kv => isStrIntBool kv.2)).foldl
    (fun d kv => dictUpd d (lower kv.1) (pyStrip (pyStr kv.2))) []

/-- Size-like values: entries whose key contains size/label/variant/name. -/
def sizeValues (fields : List (Str × Str)) : List Str :=
  (fields.filter fun kv =>
    containsTok kv.1 ["size".data, "label".data, "variant".data, "name".data]).map
    (fun kv => kv.2)

/-- Availability-like values (source line 148). -/
def availValues (fields : List (Str × Str)) : List Str :=
  (fields.filter fun kv =>
    containsTok kv.1
      ["avail".data, "in_stock".data, "instock".data, "stock".data,
       "isavailable".data, "inventory".data, "availabilitystatus".data,
       "status".data]).map (fun kv => kv.2)

/-- Quantity-like values (source line 149). -/
def qtyValues (fields : List (Str × Str)) : List Str :=
  (fields.filter fun kv =>
    containsSub kv.1 ("qty".data) || containsSub kv.1 ("quantity".data)).map
    (fun kv => kv.2)

/-- `str(q).isdigit() and int(q) > 0` (source line 151). -/
def isPosQty (q : Str) : Bool := pyIsDigit q && decide (strVal q > 0)

/-- One size value against the target: `t == sv.lower() or
re.search(rf"\b{re.escape(t)}\b", sv, re.IGNORECASE)` (source line 144). -/
def sizeValueMatch (t sv : Str) : Bool := t == lower sv || wbSearch t sv

/-- `size_match = any(... for sv in size_values)`. -/
def recSizeMatch (t : Str) (fields : List (Str × Str)) : Bool :=
  (sizeValues fields).any (sizeValueMatch t)

/-- The availability loop (source lines 153-158): first value classified as
truthy or falsy decides; the truthy test runs first for each value. -/
def availStep : List Str → Option (Bool × Str)
  | [] => none
  | av :: rest =>
    if decide (lower av ∈ TRUTHY) || truthyRe (lower av) then some (true, av)
    else if decide (lower av ∈ FALSY) || falsyRe (lower av) then some (false, av)
    else availStep rest

/-- Body of the per-record loop of `_interpret_availability`: `none` means
"continue with the next record". -/
def interpretRecord (t : Str) (rec : List (Str × Py)) : Option (Bool × Str) :=
  let fields := buildFields rec
  if recSizeMatch t fields then
    match (qtyValues fields).find? isPosQty with
    | some q => some (true, "quantity=".data ++ q)
    | none => availStep (availValues fields)
  else none

/-- `_interpret_availability(records, target_size)`: `none` models the
source's bare `return None` ("no decision"). -/
def interpret_availability (records : List (List (Str × Py))) (target_size : Str) :
    Option (Bool × Str) :=
  records.findSome? (interpretRecord (lower (pyStrip target_size)))

/-! ### `_fallback_text` (source lines 162-177) -/

/-- The optional separator class `[-–—:]` of the out-of-stock text pattern. -/
def dashColon (c : Char) : Bool := c == '-' || c == '–' || c == '—' || c == ':'

/-- A region matches `\s*[-–—:]?\s*` iff its non-whitespace content is empty
or a single dash/colon character. -/
def sepOk (seg : Str) : Bool :=
  match seg.filter (fun c => !c.isWhitespace) with
  | [] => true
  | [c] => dashColon c
  | _ => false

/-- `re.search(rf"\b{t}\b\s*[-–—:]?\s*(out of stock|sold out|unavailable)", text)`. -/
def textOut (txt t : Str) : Bool :=
  (List.range (txt.length + 1)).any fun i =>
    wbLitAt t txt i && (List.range (txt.length + 1)).any fun p =>
      decide (i + t.length ≤ p) &&
        sepOk ((txt.drop (i + t.length)).take (p - (i + t.length))) &&
        ["out of stock".data, "sold out".data, "unavailable".data].any
          (fun ph => substrAt txt ph p)

/-- `re.search(rf"\b{t}\b.*(add to bag|add to cart|in stock|available)", text)`
(`.` does not cross a newline). -/
def textIn (txt t : Str) : Bool :=
  (List.range (txt.length + 1)).any fun i =>
    wbLitAt t txt i && (List.range (txt.length + 1)).any fun p =>
      decide (i + t.length ≤ p) &&
        ((txt.drop (i + t.length)).take (p - (i + t.length))).all
          (fun c => !(c == '\n')) &&
        ["add to bag".data, "add to cart".data, "in stock".data,
         "available".data].any (fun ph => substrAt txt ph p)

/-- `_fallback_text(soup, target_size)`, taking the rendered page text (the
source lowercases it first thing). -/
def fallback_text (text target_size : Str) : Option (Bool × Str) :=
  let t := lower (pyStrip target_size)
  let txt := lower text
  if textOut txt t then some (false, "text: out of stock".data)
  else if textIn txt t then some (true, "text: likely in stock".data)
  else if containsSub txt ("add to bag".data) || containsSub txt ("add to cart".data) then
    some (true, "text: add to bag found".data)
  else if containsSub txt ("out of stock".data) || containsSub txt ("sold out".data) ||
      containsSub txt ("unavailable".data) then
    some (false, "text: global out of stock".data)
  else none

/-! ### `_json_blocks_from_ld` (source lines 46-59) -/

def isDict : Py → Bool
  | .dict _ => true
  | _ => false

/-- One loop iteration of `_json_blocks_from_ld`: `none` is a script tag
whose text failed `json.loads` (the `except: continue` branch). -/
def ldStep (blocks : List Py) (d : Option Py) : List Py :=
  match d with
  | none => blocks
  | some (.list xs) => blocks ++ xs.filter isDict
  | some (.dict kvs) => blocks ++ [.dict kvs]
  | some _ => blocks

/-- `_json_blocks_from_ld(soup)`, taking the per-script-tag `json.loads`
outcomes in document order. -/
def json_blocks_from_ld (decoded : List (Option Py)) : List Py :=
  decoded.foldl ldStep []

/-! ### `check_once` (source lines 180-205) -/

/-- The decision core of `check_once` after fetching and HTML parsing
(source lines 187-205): structured path first (when any blocks were
extracted), then the text fallback, else `(None, "could not determine")`. -/
def check_once_core (blocks : List Py) (text target_size : Str) : Option Bool × Str :=
  let res := if blocks.isEmpty then none
             else interpret_availability (find_size_records blocks) target_size
  match res with
  | some (b, j) => (some b, j)
  | none =>
    match fallback_text text target_size with
    | some (b, j) => (some b, j)
    | none => (none, "could not determine".data)

/-! ### Cleanliness of mapping keys with respect to the path syntax -/

/-- Characters that carry structural meaning inside flattened paths. -/
def sepCharB (c : Char) : Bool := c == '.' || c == '[' || c == ']'

/-- A mapping key that cannot collide with the path syntax: non-empty and
free of '.', '[' and ']'. -/
def cleanKey (k : Str) : Prop := k ≠ [] ∧ ∀ c ∈ k, sepCharB c = false

/-- Shape of the remainder of a flattened path after a node's own path:
empty (the node is a scalar) or starting with a separator character. -/
def okSuffix (t : Str) : Prop :=
  t = [] ∨ ∃ c t2, t = c :: t2 ∧ sepCharB c = true

/-- Blocks all of whose mapping keys are clean and duplicate-free (every
dict decoded from JSON has duplicate-free keys). -/
inductive CleanPy : Py → Prop where
  | scalar (v : Scalar) : CleanPy (.scalar v)
  | dict (kvs : List (Str × Py)) (hnd : (kvs.map Prod.fst).Nodup)
      (hkeys : ∀ kv ∈ kvs, cleanKey kv.1)
      (hvals : ∀ kv ∈ kvs, CleanPy kv.2) : CleanPy (.dict kvs)
  | list (xs : List Py) (hxs : ∀ x ∈ xs, CleanPy x) : CleanPy (.list xs)

/-! ## Helper lemmas -/

theorem mem_flattenFields {e : Str × Py} :
    ∀ (kvs : List (Str × Py)) (pfx : Str),
      e ∈ flattenFields kvs pfx ↔ ∃ kv ∈ kvs, e ∈ flattenList kv.2 (mkKey pfx kv.1) := by
  intro kvs pfx
  induction kvs with
  | nil => simp [flattenFields]
  | cons kv rest ih => simp [flattenFields, ih, List.mem_append, or_and_right, exists_or]

theorem mem_flattenElems {e : Str × Py} :
    ∀ (xs : List Py) (pfx : Str) (n : Nat),
      e ∈ flattenElems xs pfx n → ∃ x ∈ xs, ∃ j, n ≤ j ∧ e ∈ flattenList x (mkIdx pfx j) := by
  intro xs
  induction xs with
  | nil => simp [flattenElems]
  | cons x rest ih =>
    intro pfx n he
    simp [flattenElems, List.mem_append] at he
    rcases he with he | he
    · exact ⟨x, by simp, n, le_refl n, he⟩
    · obtain ⟨y, hy, j, hj, hin⟩ := ih pfx (n + 1) he
      exact ⟨y, by simp [hy], j, by omega, hin⟩

/-! ## C4 -/

/-- C4: size matching accepts a size-like value exactly on whole-word or
exact (lower-cased) equality of the trimmed, lower-cased target: target "S"
rejects "Small" and "XS" but accepts "S" and "Size: S". -/
theorem size_word_boundary :
    sizeValueMatch (lower (pyStrip ("S".data))) ("Small".data) = false ∧
    sizeValueMatch (lower (pyStrip ("S".data))) ("XS".data) = false ∧
    sizeValueMatch (lower (pyStrip ("S".data))) ("S".data) = true ∧
    sizeValueMatch (lower (pyStrip ("S".data))) ("Size: S".data) = true := by
  refine ⟨by decide, by decide, by decide, by decide⟩

/-! ## C2 -/

/-- C2 (code bug): the falsy token set lists "unavailable" and
"notavailable", but the truthy substring pattern (which contains
"available") is tested first, so a size-matched record with either of these
availability values yields InStock with the raw value as justification,
contradicting the declared falsy set. -/
theorem falsy_unavailable_yields_instock :
    interpret_availability
        [[("size".data, Py.scalar (.s ("m".data))),
          ("availability".data, Py.scalar (.s ("unavailable".data)))]] ("m".data)
      = some (true, "unavailable".data) ∧
    interpret_availability
        [[("size".data, Py.scalar (.s ("m".data))),
          ("availability".data, Py.scalar (.s ("notavailable".data)))]] ("m".data)
      = some (true, "notavailable".data) := by
  refine ⟨by decide, by decide⟩

/-! ## C8 -/

/-- C8: a script block whose text fails JSON decoding is skipped silently
and contributes nothing, while every other block is still extracted; in
particular one malformed block among three does not prevent extraction from
the other two. -/
theorem ld_decode_isolation :
    (∀ (xs ys : List (Option Py)),
      json_blocks_from_ld (xs ++ none :: ys) = json_blocks_from_ld (xs ++ ys)) ∧
    json_blocks_from_ld
        [some (Py.dict [("a".data, Py.scalar (.i 1))]), none,
         some (Py.dict [("b".data, Py.scalar (.i 2))])]
      = [Py.dict [("a".data, Py.scalar (.i 1))],
         Py.dict [("b".data, Py.scalar (.i 2))]] := by
  constructor
  · intro xs ys
    simp [json_blocks_from_ld, List.foldl_append, ldStep]
  · rfl

/-! ## C5 -/

/-- C5 counterexample: the source tests the size tokens against the whole
lower-cased path, not its final segment.  For the block
`{"size": {"a": 1}}` the only path is "size.a", whose final segment "a"
contains no token, yet a candidate record is produced. -/
theorem trigger_full_path_cex :
    containsTok (lower ("a".data)) sizeToks = false ∧
    find_size_records [Py.dict [("size".data, Py.dict [("a".data, Py.scalar (.i 1))])]]
      = [[("size.a".data, Py.scalar (.i 1))]] := by
  exact ⟨by decide, rfl⟩

/-- C5 (amended): a path is a cluster trigger exactly when its whole
lower-cased path string contains one of the tokens and its value is a
str/int/bool scalar; root-level paths (no dot, hence empty parent prefix)
are skipped; a trigger appends the prefix-cluster record when it is
non-empty and not yet present. -/
theorem trigger_full_path :
    (∀ (flat : List (Str × Py)) (recs : List (List (Str × Py))) (k : Str) (v : Py),
      containsTok (lower k) sizeToks = false → sizeRecStep flat recs (k, v) = recs) ∧
    (∀ (flat : List (Str × Py)) (recs : List (List (Str × Py))) (k : Str) (v : Py),
      k.any (fun c => c == '.') = false → sizeRecStep flat recs (k, v) = recs) ∧
    (∀ (flat : List (Str × Py)) (recs : List (List (Str × Py))) (k : Str) (v : Py),
      isStrIntBool v = true → containsTok (lower k) sizeToks = true →
      (recordOf flat k).isEmpty = false →
      recs.any (fun r => dictBeq r (recordOf flat k)) = false →
      sizeRecStep flat recs (k, v) = recs ++ [recordOf flat k]) := by
  refine ⟨?_, ?_, ?_⟩
  · intro flat recs k v h
    simp [sizeRecStep, h]
  · intro flat recs k v h
    simp [sizeRecStep, recordOf, parentOf, h]
  · intro flat recs k v h1 h2 h3 h4
    simp [sizeRecStep, h1, h2, h3, h4]

/-- Witness for the amended C5 theorem at concrete inputs. -/
theorem trigger_full_path_w :
    sizeRecStep [(("size.a").data, Py.scalar (.i 1))] [] (("size.a").data, Py.scalar (.i 1))
      = [] ++ [recordOf [(("size.a").data, Py.scalar (.i 1))] (("size.a").data)] ∧
    sizeRecStep [(("size").data, Py.scalar (.i 1))] [] (("size").data, Py.scalar (.i 1))
      = [] := by
  constructor
  · exact trigger_full_path.2.2 _ [] _ _ (by decide) (by decide) (by decide) (by decide)
  · exact trigger_full_path.2.1 _ [] _ _ (by decide)

/-! ## C1 -/

/-- C1: on a size-matched record, a positive digit-string quantity value
decides InStock with justification "quantity=&lt;value&gt;" before any
availability value is consulted, even when a falsy availability value is
present on the same record. -/
theorem quantity_precedence (rec : List (Str × Py)) (rest : List (List (Str × Py)))
    (target q : Str)
    (hsm : recSizeMatch (lower (pyStrip target)) (buildFields rec) = true)
    (hq : (qtyValues (buildFields rec)).find? isPosQty = some q)
    (_hfalsy : ∃ av ∈ availValues (buildFields rec),
      (decide (lower av ∈ FALSY) || falsyRe (lower av)) = true) :
    interpret_availability (rec :: rest) target
      = some (true, "quantity=".data ++ q) := by
  simp [interpret_availability, List.findSome?, interpretRecord, hsm, hq]

/-- Witness for C1: quantity "5" wins over availability "out of stock". -/
theorem quantity_precedence_w :
    interpret_availability
        [[("size".data, Py.scalar (.s ("M".data))),
          ("quantity".data, Py.scalar (.s ("5".data))),
          ("availability".data, Py.scalar (.s ("out of stock".data)))]] ("M".data)
      = some (true, "quantity=".data ++ "5".data) :=
  quantity_precedence _ [] ("M".data) ("5".data) (by decide) (by decide) (by decide)

/-! ## C3 -/

/-- C3: the structured path (correlate the extracted blocks, interpret) runs
first and short-circuits on any decision; with no structured decision the
text fallback runs; with neither, the result is Unknown with detail "could
not determine" — in particular for no blocks and unremarkable text with
target "Medium". -/
theorem orchestrator_pipeline :
    (∀ (blocks : List Py) (text target : Str) (b : Bool) (j : Str),
      blocks ≠ [] →
      interpret_availability (find_size_records blocks) target = some (b, j) →
      check_once_core blocks text target = (some b, j)) ∧
    (∀ (blocks : List Py) (text target : Str) (b : Bool) (j : Str),
      (if blocks.isEmpty then none
       else interpret_availability (find_size_records blocks) target) = none →
      fallback_text text target = some (b, j) →
      check_once_core blocks text target = (some b, j)) ∧
    (∀ (blocks : List Py) (text target : Str),
      (if blocks.isEmpty then none
       else interpret_availability (find_size_records blocks) target) = none →
      fallback_text text target = none →
      check_once_core blocks text target = (none, "could not determine".data)) ∧
    check_once_core [] ("hello world plain page".data) ("Medium".data)
      = (none, "could not determine".data) := by
  refine ⟨?_, ?_, ?_, by decide⟩
  · intro blocks text target b j hne hres
    have hble : blocks.isEmpty = false := by
      cases blocks with
      | nil => exact absurd rfl hne
      | cons x l => rfl
    simp [check_once_core, hble, hres]
  · intro blocks text target b j hres hfb
    simp [check_once_core, hres, hfb]
  · intro blocks text target hres hfb
    simp [check_once_core, hres, hfb]

/-- Witness for C3 at concrete inputs: a structured decision short-circuits. -/
theorem orchestrator_pipeline_w :
    check_once_core
        [Py.dict [("offers".data,
          Py.dict [("size".data, Py.scalar (.s ("l".data))),
                   ("availability".data, Py.scalar (.s ("instock".data)))])]]
        ("x".data) ("L".data)
      = (some true, "instock".data) :=
  orchestrator_pipeline.1 _ ("x".data) ("L".data) true ("instock".data)
    (by simp) (by decide)

/-! ## C7 -/

theorem flattenFields_scalars :
    ∀ (kvs : List (Str × Py)), (∀ kv ∈ kvs, ∃ v, kv.2 = Py.scalar v) →
      flattenFields kvs [] = kvs := by
  intro kvs
  induction kvs with
  | nil => simp [flattenFields]
  | cons kv rest ih =>
    intro h
    obtain ⟨k, v2⟩ := kv
    obtain ⟨v, hv⟩ := h (k, v2) (by simp)
    simp only at hv
    have hrest := ih (fun kv2 h2 => h kv2 (by simp [h2]))
    simp [flattenFields, hv, mkKey, flattenList, hrest]

theorem foldl_dictUpd_eq :
    ∀ (l acc : List (Str × Py)), (l.map Prod.fst).Nodup →
      (∀ e ∈ l, ∀ a ∈ acc, e.1 ≠ a.1) →
      l.foldl (fun d kv => dictUpd d kv.1 kv.2) acc = acc ++ l := by
  intro l
  induction l with
  | nil => intro acc _ _; simp
  | cons kv rest ih =>
    intro acc hnd hdisj
    rw [List.map_cons, List.nodup_cons] at hnd
    have hnotin : acc.any (fun e => e.1 == kv.1) = false := by
      rw [List.any_eq_false]
      intro a ha
      have := hdisj kv (by simp) a ha
      simpa [beq_iff_eq] using fun h => this h.symm
    have hstep : dictUpd acc kv.1 kv.2 = acc ++ [kv] := by
      simp [dictUpd, hnotin]
    have hhead : kv.1 ∉ rest.map Prod.fst := hnd.1
    have hrec := ih (acc ++ [kv])
      hnd.2
      (by
        intro e he a ha
        rcases List.mem_append.mp ha with h1 | h1
        · exact hdisj e (by simp [he]) a h1
        · have : a = kv := by simpa using h1
          subst this
          intro hEq
          exact hhead (hEq ▸ List.mem_map_of_mem Prod.fst he))
    calc (kv :: rest).foldl (fun d kv => dictUpd d kv.1 kv.2) acc
        = rest.foldl (fun d kv => dictUpd d kv.1 kv.2) (dictUpd acc kv.1 kv.2) := rfl
      _ = (acc ++ [kv]) ++ rest := by rw [hstep, hrec]
      _ = acc ++ kv :: rest := by simp

/-- C7: flattening an already-flat single-level mapping (string keys to
scalar values, keys unique as in any Python dict) returns the identical
mapping: same paths, same values, in the same order. -/
theorem flatten_flat_identity (kvs : List (Str × Py))
    (hsc : ∀ kv ∈ kvs, ∃ v, kv.2 = Py.scalar v)
    (hnd : (kvs.map Prod.fst).Nodup) :
    flatten (Py.dict kvs) = kvs := by
  have h1 : flattenList (Py.dict kvs) [] = kvs := flattenFields_scalars kvs hsc
  unfold flatten
  rw [h1, foldl_dictUpd_eq kvs [] hnd (by simp)]
  simp

/-- Witness for C7 at a concrete flat mapping. -/
theorem flatten_flat_identity_w :
    flatten (Py.dict [("a".data, Py.scalar (.s ("x".data))), ("b".data, Py.scalar (.i 2))])
      = [("a".data, Py.scalar (.s ("x".data))), ("b".data, Py.scalar (.i 2))] :=
  flatten_flat_identity _
    (by
      intro kv hkv
      simp only [List.mem_cons, List.not_mem_nil, or_false] at hkv
      rcases hkv with rfl | rfl
      · exact ⟨_, rfl⟩
      · exact ⟨_, rfl⟩)
    (by decide)

/-! ## C9 -/

theorem wAt_cons (c : Char) (s : Str) (i : Nat) : wAt (c :: s) (i + 1) = wAt s i := rfl

theorem boundaryAt_cons_of_nonword (c : Char) (s : Str) (i : Nat)
    (hc : isWordChar c = false) : boundaryAt (c :: s) (i + 1) = boundaryAt s i := by
  cases i with
  | zero => simp [boundaryAt, wAt, hc]
  | succ k => simp [boundaryAt, wAt_cons]

theorem exists_boundary_of_word :
    ∀ (s : Str), s.any isWordChar = true →
      ∃ i, i < s.length + 1 ∧ boundaryAt s i = true := by
  intro s
  induction s with
  | nil => simp
  | cons c rest ih =>
    intro h
    cases hc : isWordChar c with
    | true =>
      refine ⟨0, by simp, ?_⟩
      simp [boundaryAt, wAt, hc]
    | false =>
      have hr : rest.any isWordChar = true := by
        simp [List.any_cons, hc] at h
        simpa using h
      obtain ⟨i, hlt, hb⟩ := ih hr
      exact ⟨i + 1, by simpa using hlt, by rw [boundaryAt_cons_of_nonword c rest i hc]; exact hb⟩

theorem wbSearch_nil_of_word (sv : Str) (h : sv.any isWordChar = true) :
    wbSearch [] sv = true := by
  obtain ⟨i, hlt, hb⟩ := exists_boundary_of_word sv h
  rw [wbSearch, List.any_eq_true]
  exact ⟨i, by simpa using hlt, by simp [wbLitAt, hb, lower]⟩

/-- C9: a target that is empty or whitespace-only trims to the empty string,
and the interpreter's size match then succeeds on any record with a
size-like value containing at least one word character (the empty pattern
between two word-boundary anchors matches inside any word). -/
theorem empty_target_size_match (target : Str) (rec : List (Str × Py)) (sv : Str)
    (ht : pyStrip target = [])
    (hsv : sv ∈ sizeValues (buildFields rec))
    (hw : sv.any isWordChar = true) :
    recSizeMatch (lower (pyStrip target)) (buildFields rec) = true := by
  rw [ht]
  rw [recSizeMatch, List.any_eq_true]
  refine ⟨sv, hsv, ?_⟩
  simp [sizeValueMatch, lower, wbSearch_nil_of_word sv hw]

/-- Witness for C9: the whitespace target "  " matches the record
["size" ↦ "M"], whose availability then decides the verdict. -/
theorem empty_target_size_match_w :
    recSizeMatch (lower (pyStrip ("  ".data)))
        (buildFields [("size".data, Py.scalar (.s ("M".data))),
                      ("stock".data, Py.scalar (.s ("no".data)))]) = true ∧
    interpret_availability
        [[("size".data, Py.scalar (.s ("M".data))),
          ("stock".data, Py.scalar (.s ("no".data)))]] ("  ".data)
      = some (false, "no".data) := by
  constructor
  · exact empty_target_size_match ("  ".data) _ ("M".data) (by decide) (by decide) (by decide)
  · decide

/-! ## C10 -/

theorem toLower_digit (c : Char) (h : c.isDigit = true) : c.toLower = c := by
  have hn : c.toNat ≤ 57 := by
    simp only [Char.isDigit, Bool.and_eq_true, decide_eq_true_eq] at h
    simpa [Char.le_def, Char.toNat] using h.2
  rw [Char.toLower, if_neg (by omega)]

theorem lower_digits : ∀ (q : Str), (∀ c ∈ q, c.isDigit = true) → lower q = q := by
  intro q
  induction q with
  | nil => intro _; rfl
  | cons c t ih =>
    intro hq
    have ht := ih (fun c2 h2 => hq c2 (by simp [h2]))
    rw [lower] at ht ⊢
    rw [List.map_cons, toLower_digit c (hq c (by simp)), ht]

theorem substrAt_subset {s ndl : Str} {i : Nat} (h : substrAt s ndl i = true) :
    ∀ c ∈ ndl, c ∈ s := by
  intro c hc
  rw [substrAt, beq_iff_eq] at h
  have h2 : c ∈ (s.drop i).take ndl.length := h ▸ hc
  exact List.drop_subset i s (List.take_subset _ _ h2)

theorem mem_of_containsSub {s ndl : Str} (h : containsSub s ndl = true) :
    ∀ c ∈ ndl, c ∈ s := by
  rw [containsSub, List.any_eq_true] at h
  obtain ⟨i, _, hi⟩ := h
  exact substrAt_subset hi

theorem mem_of_wsSeq2 {a b s : Str} (h : wsSeq2 a b s = true) : ∀ c ∈ a, c ∈ s := by
  rw [wsSeq2, List.any_eq_true] at h
  obtain ⟨i, _, hi⟩ := h
  rw [Bool.and_eq_true] at hi
  exact substrAt_subset hi.1

theorem mem_of_wsSeq3 {a b c s : Str} (h : wsSeq3 a b c s = true) : ∀ x ∈ a, x ∈ s := by
  rw [wsSeq3, List.any_eq_true] at h
  obtain ⟨i, _, hi⟩ := h
  rw [Bool.and_eq_true] at hi
  exact substrAt_subset hi.1

theorem falsy_test_quantity (q : Str) (hq : ∀ c ∈ q, c.isDigit = true) :
    (decide ((("quantity=".data : Str) ++ q) ∈ FALSY) ||
      falsyRe (("quantity=".data : Str) ++ q)) = false := by
  have halien : ∀ (c : Char), c.isDigit = false → ¬ c ∈ ("quantity=".data : Str) →
      ¬ c ∈ (("quantity=".data : Str) ++ q) := by
    intro c hcd hcq hmem
    rcases List.mem_append.mp hmem with h | h
    · exact hcq h
    · have := hq c h
      rw [hcd] at this
      exact absurd this (by decide)
  rcases Bool.eq_false_or_eq_true
      (decide ((("quantity=".data : Str) ++ q) ∈ FALSY)) with hF | hF
  · exfalso
    have hmem := of_decide_eq_true hF
    rw [FALSY] at hmem
    simp only [List.mem_cons, List.not_mem_nil, or_false] at hmem
    rcases hmem with h|h|h|h|h|h|h|h
    · exact halien 'f' (by decide) (by decide) (by rw [h]; decide)
    · exact halien 'o' (by decide) (by decide) (by rw [h]; decide)
    · exact halien 'o' (by decide) (by decide) (by rw [h]; decide)
    · exact halien 'v' (by decide) (by decide) (by rw [h]; decide)
    · exact halien 'o' (by decide) (by decide) (by rw [h]; decide)
    · exact halien 's' (by decide) (by decide) (by rw [h]; decide)
    · exact halien 's' (by decide) (by decide) (by rw [h]; decide)
    · exact halien 'v' (by decide) (by decide) (by rw [h]; decide)
  · rw [hF, Bool.false_or]
    rcases Bool.eq_false_or_eq_true
        (falsyRe (("quantity=".data : Str) ++ q)) with hR | hR
    · exfalso
      rw [falsyRe] at hR
      simp only [Bool.or_eq_true] at hR
      rcases hR with ((h|h)|h)|h
      · exact halien 'o' (by decide) (by decide) (mem_of_wsSeq3 h 'o' (by decide))
      · exact halien 's' (by decide) (by decide) (mem_of_wsSeq2 h 's' (by decide))
      · exact halien 'v' (by decide) (by decide) (mem_of_containsSub h 'v' (by decide))
      · exact halien 'f' (by decide) (by decide) (mem_of_containsSub h 'f' (by decide))
    · exact hR

theorem availStep_false : ∀ (l : List Str) (j : Str), availStep l = some (false, j) →
    j ∈ l ∧ (decide (lower j ∈ FALSY) || falsyRe (lower j)) = true := by
  intro l
  induction l with
  | nil => intro j h; simp [availStep] at h
  | cons av rest ih =>
    intro j h
    rw [availStep] at h
    split at h
    · exact absurd h (by simp)
    · split at h
      · next hcond =>
        have hj : av = j := by
          simpa using h
        subst hj
        exact ⟨by simp, hcond⟩
      · obtain ⟨hmem, hcond⟩ := ih j h
        exact ⟨List.mem_cons_of_mem _ hmem, hcond⟩

/-- C10: quantity-like values can only produce InStock: "0" and non-digit
strings are not positive quantities (so the quantity loop falls through to
the availability values), and no OutOfStock verdict carries a justification
of the form "quantity=&lt;digits&gt;". -/
theorem quantity_signal_only_instock :
    (isPosQty ("0".data) = false) ∧
    (∀ (q : Str) (c : Char), c ∈ q → c.isDigit = false → isPosQty q = false) ∧
    (∀ (t : Str) (rec : List (Str × Py)),
      recSizeMatch t (buildFields rec) = true →
      (qtyValues (buildFields rec)).find? isPosQty = none →
      interpretRecord t rec = availStep (availValues (buildFields rec))) ∧
    (∀ (records : List (List (Str × Py))) (target j q : Str),
      (∀ c ∈ q, c.isDigit = true) →
      interpret_availability records target = some (false, j) →
      j ≠ "quantity=".data ++ q) := by
  refine ⟨by decide, ?_, ?_, ?_⟩
  · intro q c hc hcd
    rw [isPosQty, pyIsDigit]
    have : q.all Char.isDigit = false := by
      rw [List.all_eq_false]
      exact ⟨c, hc, by simp [hcd]⟩
    simp [this]
  · intro t rec hsm hfind
    simp [interpretRecord, hsm, hfind]
  · intro records target j q hq hres heq
    subst heq
    rw [interpret_availability] at hres
    obtain ⟨rec, hrec, hint⟩ := List.exists_of_findSome?_eq_some hres
    simp only [interpretRecord] at hint
    split at hint
    · cases hfind : (qtyValues (buildFields rec)).find? isPosQty with
      | some q2 =>
        rw [hfind] at hint
        simp at hint
      | none =>
        rw [hfind] at hint
        simp only at hint
        obtain ⟨hmem, hcond⟩ := availStep_false _ _ hint
        have hlow : lower ("quantity=".data ++ q) = ("quantity=".data : Str) ++ q := by
          rw [lower, List.map_append]
          have h1 : List.map Char.toLower ("quantity=".data) = "quantity=".data := by decide
          have h2 : List.map Char.toLower q = q := by
            have := lower_digits q hq
            rwa [lower] at this
          rw [h1, h2]
        rw [hlow] at hcond
        have hfalse := falsy_test_quantity q hq
        rw [hcond] at hfalse
        exact absurd hfalse (by decide)
    · exact absurd hint (by simp)

/-- Witness for C10 at concrete inputs. -/
theorem quantity_signal_only_instock_w :
    isPosQty ("x7".data) = false ∧
    interpretRecord ("m".data)
        [("size".data, Py.scalar (.s ("m".data))), ("stock".data, Py.scalar (.s ("no".data)))]
      = availStep (availValues (buildFields
          [("size".data, Py.scalar (.s ("m".data))), ("stock".data, Py.scalar (.s ("no".data)))])) ∧
    ("no".data : Str) ≠ "quantity=".data ++ "7".data := by
  refine ⟨?_, ?_, ?_⟩
  · exact quantity_signal_only_instock.2.1 ("x7".data) 'x' (by decide) (by decide)
  · exact quantity_signal_only_instock.2.2.1 ("m".data) _ (by decide) (by decide)
  · exact quantity_signal_only_instock.2.2.2
      [[("size".data, Py.scalar (.s ("m".data))), ("stock".data, Py.scalar (.s ("no".data)))]]
      ("m".data) ("no".data) ("7".data) (by decide) (by decide)

/-! ## C6 -/

theorem digitChar_digit : ∀ (m : Nat), (digitChar m).isDigit = true := by
  intro m
  rw [digitChar]
  repeat' split
  all_goals decide

theorem digit_not_sep (c : Char) (h : c.isDigit = true) : sepCharB c = false := by
  rcases Bool.eq_false_or_eq_true (sepCharB c) with hs | hs
  swap
  · exact hs
  · exfalso
    rw [sepCharB] at hs
    simp only [Bool.or_eq_true, beq_iff_eq] at hs
    rcases hs with (rfl | rfl) | rfl
    · exact absurd h (by decide)
    · exact absurd h (by decide)
    · exact absurd h (by decide)

theorem natStrAux_digits : ∀ (fuel n : Nat), ∀ c ∈ natStrAux n fuel, c.isDigit = true := by
  intro fuel
  induction fuel with
  | zero => intro n c hc; simp [natStrAux] at hc
  | succ f ih =>
    intro n c hc
    rw [natStrAux] at hc
    split at hc
    · simp only [List.mem_singleton] at hc
      rw [hc]
      exact digitChar_digit n
    · rcases List.mem_append.mp hc with h | h
      · exact ih (n / 10) c h
      · simp only [List.mem_singleton] at h
        rw [h]
        exact digitChar_digit _

theorem natStr_digits (n : Nat) : ∀ c ∈ natStr n, c.isDigit = true :=
  natStrAux_digits (n + 1) n

theorem natStr_clean (n : Nat) : ∀ c ∈ natStr n, sepCharB c = false :=
  fun c hc => digit_not_sep c (natStr_digits n c hc)

theorem strVal_append (s : Str) (c : Char) :
    strVal (s ++ [c]) = 10 * strVal s + digitVal c := by
  rw [strVal, strVal, List.foldl_append]
  rfl

theorem digitVal_digitChar : ∀ m, m < 10 → digitVal (digitChar m) = m := by decide

theorem natStrAux_val : ∀ (fuel n : Nat), n < fuel → strVal (natStrAux n fuel) = n := by
  intro fuel
  induction fuel with
  | zero => intro n h; omega
  | succ f ih =>
    intro n hn
    rw [natStrAux]
    split
    · next h =>
      rw [strVal]
      simp only [List.foldl_cons, List.foldl_nil]
      have := digitVal_digitChar n h
      simpa using this
    · next h =>
      have hdiv : n / 10 < n := Nat.div_lt_self (by omega) (by omega)
      rw [strVal_append, ih (n / 10) (by omega),
        digitVal_digitChar (n % 10) (Nat.mod_lt _ (by omega))]
      omega

theorem natStr_val (n : Nat) : strVal (natStr n) = n :=
  natStrAux_val (n + 1) n (by omega)

theorem natStr_inj {a b : Nat} (h : natStr a = natStr b) : a = b := by
  have ha := natStr_val a
  rw [h, natStr_val] at ha
  omega

theorem clean_append_cancel :
    ∀ (a : Str), (∀ c ∈ a, sepCharB c = false) →
    ∀ (b : Str), (∀ c ∈ b, sepCharB c = false) →
    ∀ (t1 t2 : Str), okSuffix t1 → okSuffix t2 → a ++ t1 = b ++ t2 →
      a = b ∧ t1 = t2 := by
  intro a
  induction a with
  | nil =>
    intro _ b hb t1 t2 h1 _ heq
    cases b with
    | nil => exact ⟨rfl, by simpa using heq⟩
    | cons y b2 =>
      exfalso
      simp only [List.nil_append, List.cons_append] at heq
      rcases h1 with h1 | ⟨c, t3, hc, hsep⟩
      · rw [h1] at heq
        exact List.noConfusion heq
      · rw [hc] at heq
        injection heq with h4 _
        have := hb y (by simp)
        rw [← h4] at this
        rw [hsep] at this
        exact absurd this (by decide)
  | cons x a2 ih =>
    intro ha b hb t1 t2 h1 h2 heq
    cases b with
    | nil =>
      exfalso
      simp only [List.cons_append, List.nil_append] at heq
      rcases h2 with h2 | ⟨c, t3, hc, hsep⟩
      · rw [h2] at heq
        exact List.noConfusion heq
      · rw [hc] at heq
        injection heq with h4 _
        have := ha x (by simp)
        rw [h4, hsep] at this
        exact absurd this (by decide)
    | cons y b2 =>
      simp only [List.cons_append] at heq
      injection heq with h4 h5
      subst h4
      obtain ⟨hab, ht⟩ := ih (fun c hc => ha c (by simp [hc])) b2
        (fun c hc => hb c (by simp [hc])) t1 t2 h1 h2 h5
      exact ⟨by rw [hab], ht⟩

theorem mkKey_ne_nil (pfx k : Str) (hk : k ≠ []) : mkKey pfx k ≠ [] := by
  rw [mkKey]
  split
  · exact hk
  · simp

theorem mkIdx_ne_nil (pfx : Str) (i : Nat) : mkIdx pfx i ≠ [] := by
  rw [mkIdx]
  simp

theorem flattenList_suffix {p : Py} (hp : CleanPy p) :
    ∀ (pfx : Str), pfx ≠ [] → ∀ e ∈ flattenList p pfx,
      ∃ t, e.1 = pfx ++ t ∧ okSuffix t := by
  induction hp with
  | scalar v =>
    intro pfx _ e he
    simp only [flattenList, List.mem_singleton] at he
    exact ⟨[], by rw [he]; simp, Or.inl rfl⟩
  | dict kvs hnd hkeys hvals ih =>
    intro pfx hpfx e he
    simp only [flattenList] at he
    rw [mem_flattenFields kvs pfx] at he
    obtain ⟨kv, hkv, he2⟩ := he
    have hne : mkKey pfx kv.1 ≠ [] := by
      rw [mkKey, if_neg hpfx]
      simp
    obtain ⟨t, ht, _⟩ := ih kv hkv (mkKey pfx kv.1) hne e he2
    refine ⟨'.' :: (kv.1 ++ t), ?_, Or.inr ⟨'.', _, rfl, by decide⟩⟩
    rw [ht, mkKey, if_neg hpfx]
    simp [List.append_assoc]
  | list xs hxs ih =>
    intro pfx hpfx e he
    simp only [flattenList] at he
    obtain ⟨x, hx, j, _, he2⟩ := mem_flattenElems xs pfx 0 he
    obtain ⟨t, ht, _⟩ := ih x hx (mkIdx pfx j) (mkIdx_ne_nil pfx j) e he2
    refine ⟨'[' :: (natStr j ++ ']' :: t), ?_, Or.inr ⟨'[', _, rfl, by decide⟩⟩
    rw [ht, mkIdx]
    simp [List.append_assoc]

theorem flattenList_keys_nodup {p : Py} (hp : CleanPy p) :
    ∀ (pfx : Str), ((flattenList p pfx).map Prod.fst).Nodup := by
  induction hp with
  | scalar v => intro pfx; simp [flattenList]
  | dict kvs hnd hkeys hvals ih =>
    intro pfx
    simp only [flattenList]
    have aux : ∀ (l : List (Str × Py)), (l.map Prod.fst).Nodup →
        (∀ kv ∈ l, cleanKey kv.1) → (∀ kv ∈ l, CleanPy kv.2) →
        (∀ kv ∈ l, ∀ pfx2, ((flattenList kv.2 pfx2).map Prod.fst).Nodup) →
        ((flattenFields l pfx).map Prod.fst).Nodup := by
      intro l
      induction l with
      | nil => intro _ _ _ _; simp [flattenFields]
      | cons kv rest ihl =>
        intro hnd2 hk2 hc2 hn2
        rw [List.map_cons, List.nodup_cons] at hnd2
        simp only [flattenFields, List.map_append]
        rw [List.nodup_append]
        refine ⟨hn2 kv (by simp) (mkKey pfx kv.1),
          ihl hnd2.2 (fun kw h => hk2 kw (by simp [h]))
            (fun kw h => hc2 kw (by simp [h]))
            (fun kw h => hn2 kw (by simp [h])), ?_⟩
        intro a ha hb
        rw [List.mem_map] at ha hb
        obtain ⟨e1, he1, hae1⟩ := ha
        obtain ⟨e2, he2, hae2⟩ := hb
        rw [mem_flattenFields rest pfx] at he2
        obtain ⟨kw, hkw, he2b⟩ := he2
        have hk1 := hk2 kv (by simp)
        have hkw1 := hk2 kw (by simp [hkw])
        obtain ⟨t1, ht1, ho1⟩ := flattenList_suffix (hc2 kv (by simp))
          (mkKey pfx kv.1) (mkKey_ne_nil pfx kv.1 hk1.1) e1 he1
        obtain ⟨t2, ht2, ho2⟩ := flattenList_suffix (hc2 kw (by simp [hkw]))
          (mkKey pfx kw.1) (mkKey_ne_nil pfx kw.1 hkw1.1) e2 he2b
        have heq : mkKey pfx kv.1 ++ t1 = mkKey pfx kw.1 ++ t2 := by
          rw [← ht1, ← ht2, hae1, hae2]
        have hkk : kv.1 ≠ kw.1 := by
          intro hEq
          exact hnd2.1 (hEq ▸ List.mem_map_of_mem Prod.fst hkw)
        by_cases hpfx : pfx = []
        · subst hpfx
          simp only [mkKey, if_pos rfl] at heq
          obtain ⟨h5, _⟩ := clean_append_cancel kv.1 hk1.2 kw.1 hkw1.2 t1 t2 ho1 ho2 heq
          exact hkk h5
        · rw [mkKey, if_neg hpfx, mkKey, if_neg hpfx] at heq
          simp only [List.append_assoc, List.cons_append] at heq
          have h6 := List.append_cancel_left heq
          injection h6 with _ h7
          obtain ⟨h5, _⟩ := clean_append_cancel kv.1 hk1.2 kw.1 hkw1.2 t1 t2 ho1 ho2 h7
          exact hkk h5
    exact aux kvs hnd hkeys hvals (fun kv h pfx2 => ih kv h pfx2)
  | list xs hxs ih =>
    intro pfx
    simp only [flattenList]
    have aux : ∀ (l : List Py) (n : Nat), (∀ x ∈ l, CleanPy x) →
        (∀ x ∈ l, ∀ pfx2, ((flattenList x pfx2).map Prod.fst).Nodup) →
        ((flattenElems l pfx n).map Prod.fst).Nodup := by
      intro l
      induction l with
      | nil => intro n _ _; simp [flattenElems]
      | cons x rest ihl =>
        intro n hc2 hn2
        simp only [flattenElems, List.map_append]
        rw [List.nodup_append]
        refine ⟨hn2 x (by simp) (mkIdx pfx n),
          ihl (n + 1) (fun y h => hc2 y (by simp [h]))
            (fun y h => hn2 y (by simp [h])), ?_⟩
        intro a ha hb
        rw [List.mem_map] at ha hb
        obtain ⟨e1, he1, hae1⟩ := ha
        obtain ⟨e2, he2, hae2⟩ := hb
        obtain ⟨y, hy, j, hj, he2b⟩ := mem_flattenElems rest pfx (n + 1) he2
        obtain ⟨t1, ht1, _⟩ := flattenList_suffix (hc2 x (by simp))
          (mkIdx pfx n) (mkIdx_ne_nil pfx n) e1 he1
        obtain ⟨t2, ht2, _⟩ := flattenList_suffix (hc2 y (by simp [hy]))
          (mkIdx pfx j) (mkIdx_ne_nil pfx j) e2 he2b
        have heq : mkIdx pfx n ++ t1 = mkIdx pfx j ++ t2 := by
          rw [← ht1, ← ht2, hae1, hae2]
        rw [mkIdx, mkIdx] at heq
        simp only [List.append_assoc, List.cons_append, List.singleton_append] at heq
        have h6 := List.append_cancel_left heq
        injection h6 with _ h7
        obtain ⟨h8, _⟩ := clean_append_cancel (natStr n) (natStr_clean n)
          (natStr j) (natStr_clean j) (']' :: t1) (']' :: t2)
          (Or.inr ⟨']', t1, rfl, by decide⟩) (Or.inr ⟨']', t2, rfl, by decide⟩) h7
        have := natStr_inj h8
        omega
    exact aux xs 0 hxs (fun x h pfx2 => ih x h pfx2)

/-- C6 counterexample: mapping keys may themselves contain the path
separator, so two distinct traversal paths can produce the same path
string, and the later entry overwrites the earlier one in the flat dict. -/
theorem flatten_dup_path_cex :
    ¬ ((flattenList (Py.dict [("a.b".data, Py.scalar (.i 1)),
          ("a".data, Py.dict [("b".data, Py.scalar (.i 2))])]) []).map Prod.fst).Nodup ∧
    flatten (Py.dict [("a.b".data, Py.scalar (.i 1)),
          ("a".data, Py.dict [("b".data, Py.scalar (.i 2))])])
      = [("a.b".data, Py.scalar (.i 2))] :=
  ⟨by decide, rfl⟩

/-- C6 (amended): for every block whose mapping keys are non-empty, free of
the path-syntax characters '.', '[' and ']', and duplicate-free within each
mapping, no two distinct traversal paths produce the same path string, and
consequently no entry of the flat dict is overwritten (the dict equals the
traversal sequence). -/
theorem flatten_paths_nodup (p : Py) (hp : CleanPy p) :
    ((flattenList p []).map Prod.fst).Nodup ∧ flatten p = flattenList p [] := by
  have hnd := flattenList_keys_nodup hp []
  refine ⟨hnd, ?_⟩
  rw [flatten, foldl_dictUpd_eq (flattenList p []) [] hnd (by simp)]
  simp

/-- Witness for the amended C6 theorem on a concrete clean block. -/
theorem flatten_paths_nodup_w :
    ((flattenList (Py.dict [("a".data, Py.dict [("b".data, Py.scalar (.i 1)),
        ("c".data, Py.list [Py.scalar .null])])]) []).map Prod.fst).Nodup ∧
    flatten (Py.dict [("a".data, Py.dict [("b".data, Py.scalar (.i 1)),
        ("c".data, Py.list [Py.scalar .null])])])
      = flattenList (Py.dict [("a".data, Py.dict [("b".data, Py.scalar (.i 1)),
          ("c".data, Py.list [Py.scalar .null])])]) [] := by
  apply flatten_paths_nodup
  refine CleanPy.dict _ (by decide) ?_ ?_
  · intro kv hkv
    simp only [List.mem_singleton] at hkv
    subst hkv
    exact ⟨by decide, by decide⟩
  · intro kv hkv
    simp only [List.mem_singleton] at hkv
    subst hkv
    refine CleanPy.dict _ (by decide) ?_ ?_
    · intro kw hkw
      simp only [List.mem_cons, List.not_mem_nil, or_false] at hkw
      rcases hkw with rfl | rfl
      · exact ⟨by decide, by decide⟩
      · exact ⟨by decide, by decide⟩
    · intro kw hkw
      simp only [List.mem_cons, List.not_mem_nil, or_false] at hkw
      rcases hkw with rfl | rfl
      · exact CleanPy.scalar _
      · refine CleanPy.list _ ?_
        intro x hx
        simp only [List.mem_singleton] at hx
        subst hx
        exact CleanPy.scalar _

end Gap
